import Mathlib

/-!
A shallow embedding of the session-aggregation core of `resumesx`:
the summarization helpers (`src/lib/format.ts`), the scan orchestrator
(`src/lib/scan.ts`), and the three provider parsers (Claude, Codex, Gemini).

Modelling conventions:
* JavaScript strings are modelled as Lean `String` (lengths count characters;
  the repository only manipulates them at character granularity).
* JavaScript `number` timestamps are modelled as `Int`; `Date` values are
  modelled by their epoch value, so `occurredAt : Int`.
* `new Date(isoString)` together with the `Number.isNaN(getTime())` check is an
  external standard-library call; functions that use it are parametrised over
  `parseDate : String → Option Int` (`none` models an invalid instant).
* Optional TS fields become `Option`; JS truthiness tests on optional strings
  (`!x`) are `none`-or-empty tests, and on optional numbers `none`-or-zero.
* The filesystem is externalised: parsers take the (already mtime-ordered)
  decoded file contents as input lists.
-/

/-- The character class of JavaScript's `\s` (and of `String.prototype.trim`). -/
def isJsWs (c : Char) : Bool :=
  let n := c.val
  n == 9 || n == 10 || n == 11 || n == 12 || n == 13 || n == 32 ||
  n == 0xa0 || n == 0x1680 || (0x2000 ≤ n && n ≤ 0x200a) ||
  n == 0x2028 || n == 0x2029 || n == 0x202f || n == 0x205f ||
  n == 0x3000 || n == 0xfeff

/-- State machine for `replace(/\s+/g, ' ')`: the flag records whether the
previous character was whitespace (so the current run is already collapsed). -/
def collapseAux : Bool → List Char → List Char
  | _, [] => []
  | prevWs, c :: rest =>
    if isJsWs c then
      if prevWs then collapseAux true rest
      else ' ' :: collapseAux true rest
    else c :: collapseAux false rest

/-- JavaScript `input.replace(/\s+/g, ' ')`. -/
def collapseWs (l : List Char) : List Char := collapseAux false l

/-- JavaScript `String.prototype.trim` on a character list. -/
def jsTrim (l : List Char) : List Char :=
  ((l.dropWhile isJsWs).reverse.dropWhile isJsWs).reverse

/-- `src/lib/format.ts` `toSummary`: whitespace-collapse, trim, cap at 120
characters with a `"..."` suffix after truncation to 117.  The `none` results
model the `undefined` returns (empty input, or input collapsing to nothing). -/
def toSummary (input : String) : Option String :=
  if input = "" then none
  else
    let t := jsTrim (collapseWs input.toList)
    if t.isEmpty then none
    else if t.length > 120 then some ((t.take 117).asString ++ "...")
    else some t.asString

/-- `needle` occurs as a contiguous substring of `hay`
(JavaScript `hay.includes(needle)`). -/
def jsIncludes (hay needle : String) : Bool :=
  hay.toList.tails.any (fun t => needle.toList.isPrefixOf t)

/-- `src/lib/format.ts` `isUiEcho`: the message contains one of the picker's
own UI markers. -/
def isUiEcho (message : String) : Bool :=
  ["Resume a previous session", "Type to search", "Up/Down:", "Left/Right",
   "Page:"].any (fun marker => jsIncludes message marker)

/-- The path separator (`path.sep` on the POSIX platforms the tool targets). -/
def pathSep : String := "/"

/-- JavaScript `s.startsWith(p)` (computed on character lists). -/
def strStartsWith (s p : String) : Bool :=
  p.toList.isPrefixOf s.toList

/-- The directory-scoping rule shared by the Claude and Codex parsers:
`sessionCwd === cwd || cwd.startsWith(sessionCwd + path.sep) ||
sessionCwd.startsWith(cwd + path.sep)`. -/
def matchesCwd (cwd sessionCwd : String) : Bool :=
  sessionCwd == cwd ||
  strStartsWith cwd (sessionCwd ++ pathSep) ||
  strStartsWith sessionCwd (cwd ++ pathSep)

/-! ## Data model (`src/types.ts`) -/

inductive Confidence where
  | high
  | medium
  | low
deriving DecidableEq, Repr

inductive ResumeMode where
  | resume
  | launch
deriving DecidableEq, Repr

structure ResumeCommand where
  command : String
  args : List String
  mode : ResumeMode
deriving DecidableEq, Repr

/-- `ToolEvent`; `occurredAt` is the `Date`'s epoch value. -/
structure ToolEvent where
  id : String
  label : String
  occurredAt : Int
  source : String
  confidence : Confidence
  summary : Option String
  resume : Option ResumeCommand
deriving DecidableEq, Repr

structure ScanOptions where
  limit : Option Nat
  includeAll : Option Bool
deriving DecidableEq, Repr

structure ScanResult where
  events : List ToolEvent
  latest : Option ToolEvent
deriving DecidableEq, Repr

/-- The outcome of one provider's `fetchEvents` call: either a list of events
or a raised error (the thrown value itself is irrelevant to the orchestrator). -/
inductive ProviderRun where
  | ok (events : List ToolEvent)
  | error
deriving DecidableEq, Repr

/-! ## Scan orchestrator (`src/lib/scan.ts`) -/

/-- The comparator `(a, b) => b.occurredAt.getTime() - a.occurredAt.getTime()`
read as a boolean "a may come before b" relation: negative-or-zero difference. -/
def timeGE (a b : ToolEvent) : Bool :=
  b.occurredAt ≤ a.occurredAt

/-- `sortByTime`: a stable sort by `occurredAt` descending
(`Array.prototype.sort` is stable; `mergeSort` models it). -/
def sortByTime (events : List ToolEvent) : List ToolEvent :=
  events.mergeSort timeGE

/-- The `try { await provider.fetchEvents(options) } catch { return [] }`
wrapper: an error is absorbed into an empty contribution. -/
def absorbFailure (p : ProviderRun) : List ToolEvent :=
  match p with
  | .ok events => events
  | .error => []

/-- `scanProviders`: run every provider (modelled by its outcome), absorb
failures, merge, sort by time, apply the optional limit, and expose the most
recent event. -/
def scanProviders (providers : List ProviderRun) (options : Option ScanOptions) :
    ScanResult :=
  let limit := (options.getD ⟨none, none⟩).limit
  let results := providers.map absorbFailure
  let merged := sortByTime results.flatten
  let events := match limit with
    | some n => merged.take n
    | none => merged
  { events := events, latest := events.head? }

/-! ## Claude parser (`src/providers/claude/index.ts`)

The JSONL stream is modelled as the list of shape-valid records
(`isValidClaudeRecord`); blank and malformed lines never reach the per-record
logic and are omitted from the input list. -/

/-- A shape-valid record of `~/.claude/history.jsonl`. -/
structure ClaudeRecord where
  timestamp : Option Int
  display : Option String
  sessionId : Option String
  project : Option String
deriving DecidableEq, Repr

/-- Per-session aggregate (`SessionData` in the source). -/
structure SessionData where
  firstTimestamp : Int
  lastTimestamp : Int
  prevTimestamp : Option Int
  first : Option String
  last : Option String
  prev : Option String
deriving DecidableEq, Repr

/-- JS truthiness of an optional string: `undefined` and `""` are falsy. -/
def truthyStr (o : Option String) : Bool :=
  o.getD "" != ""

/-- JS truthiness of an optional number: `undefined` and `0` are falsy. -/
def truthyInt (o : Option Int) : Bool :=
  o.getD 0 != 0

/-- Lines 98–111: fold one in-scope record with a usable summary into an
existing session aggregate. -/
def updateExisting (ex : SessionData) (ts : Int) (summary : String) :
    SessionData :=
  let ex1 :=
    if ts < ex.firstTimestamp then
      { ex with firstTimestamp := ts, first := some summary }
    else ex
  if ts ≥ ex1.lastTimestamp then
    { ex1 with
      prevTimestamp := some ex1.lastTimestamp
      prev := ex1.last
      lastTimestamp := ts
      last := some summary }
  else if !truthyInt ex1.prevTimestamp ||
      (match ex1.prevTimestamp with | some pt => ts > pt | none => false) then
    { ex1 with prevTimestamp := some ts, prev := some summary }
  else ex1

/-- Replace the value stored at the first occurrence of `key`
(a `Map.set` on an existing key keeps its position). -/
def setAssoc (l : List (String × SessionData)) (key : String)
    (v : SessionData) : List (String × SessionData) :=
  match l with
  | [] => []
  | (k, old) :: rest =>
    if k = key then (k, v) :: rest else (k, old) :: setAssoc rest key v

/-- Look up a session key (JS `Map.get`). -/
def getAssoc (l : List (String × SessionData)) (key : String) :
    Option SessionData :=
  match l with
  | [] => none
  | (k, v) :: rest => if k = key then some v else getAssoc rest key

/-- Lines 65–112: process one shape-valid record against the session map
(`Map` iteration order is insertion order, so the map is an association list
and fresh keys are appended). -/
def processClaudeRecord (cwd : String)
    (sessions : List (String × SessionData)) (r : ClaudeRecord) :
    List (String × SessionData) :=
  if !truthyStr r.sessionId || !truthyInt r.timestamp || !truthyStr r.project
  then sessions
  else
    let sid := r.sessionId.getD ""
    let ts := r.timestamp.getD 0
    let proj := r.project.getD ""
    if !matchesCwd cwd proj then sessions
    else
      let summary :=
        match r.display with
        | some d => if d != "" && !isUiEcho d then toSummary d else none
        | none => none
      match summary with
      | none => sessions
      | some s =>
        match getAssoc sessions sid with
        | none =>
          sessions ++ [(sid, ⟨ts, ts, none, some s, some s, none⟩)]
        | some ex => setAssoc sessions sid (updateExisting ex ts s)

/-- Lines 118–137: materialize one session into a `ToolEvent`
(`data.first ?? data.prev ?? data.last`, then the `!summary` guard). -/
def finalizeClaudeSession (entry : String × SessionData) : Option ToolEvent :=
  match (entry.2.first.orElse fun _ => entry.2.prev).orElse
      fun _ => entry.2.last with
  | none => none
  | some summary =>
    if summary = "" then none
    else
      some
        { id := "claude-" ++ entry.1
          label := "Claude Code"
          occurredAt := entry.2.lastTimestamp
          source := "history.jsonl"
          confidence := .high
          summary := some summary
          resume := some ⟨"claude", ["--resume", entry.1], .resume⟩ }

/-- `claudeProvider.fetchEvents`, as a function of the current working
directory, the shape-valid records of the history file, and the optional
numeric limit. -/
def claudeFetchEvents (cwd : String) (records : List ClaudeRecord)
    (limit : Option Nat) : List ToolEvent :=
  let sessions := records.foldl (processClaudeRecord cwd) []
  let items := sessions.filterMap finalizeClaudeSession
  (sortByTime items).take (limit.getD 50)

/-! ## Codex parser (the `codexProvider` module)

Files under `~/.codex/sessions` are modelled as `(name, records)` pairs where
`records` are the shape-valid JSONL records (`isValidCodexRecord`); the list is
already ordered by modification time descending, as `fetchEvents` arranges
before reading any content. -/

/-- The (merged) optional payload of a Codex record: `session_meta` payloads
carry `id`/`cwd`, `event_msg` payloads carry `type`/`message`. -/
structure CodexPayload where
  id : Option String
  cwd : Option String
  ptype : Option String
  message : Option String
deriving DecidableEq, Repr

/-- A shape-valid record of a Codex session file. -/
structure CodexRecord where
  rtype : Option String
  timestamp : Option String
  payload : Option CodexPayload
deriving DecidableEq, Repr

/-- The running state of `readSessionSummary`. -/
structure SessionSummary where
  sessionId : Option String
  sessionCwd : Option String
  firstUserMessage : Option String
  lastUserMessage : Option String
  prevUserMessage : Option String
  lastTimestamp : Option String
deriving DecidableEq, Repr

/-- One loop iteration of `readSessionSummary` (lines 97–122): record the
latest string timestamp, absorb `session_meta` id/cwd, and track
first/previous/last non-echo user messages. -/
def codexStep (s : SessionSummary) (r : CodexRecord) : SessionSummary :=
  let s :=
    match r.timestamp with
    | some t => { s with lastTimestamp := some t }
    | none => s
  let s :=
    if r.rtype == some "session_meta" then
      match r.payload with
      | some p =>
        let s :=
          match p.id with
          | some i => { s with sessionId := some i }
          | none => s
        match p.cwd with
        | some c => { s with sessionCwd := some c }
        | none => s
      | none => s
    else s
  if r.rtype == some "event_msg" then
    match r.payload with
    | some p =>
      if p.ptype == some "user_message" then
        match p.message with
        | some m =>
          if !isUiEcho m then
            let s :=
              if !truthyStr s.firstUserMessage then
                { s with firstUserMessage := some m }
              else s
            { s with
              prevUserMessage := s.lastUserMessage
              lastUserMessage := some m }
          else s
        | none => s
      else s
    | none => s
  else s

/-- `readSessionSummary` over the shape-valid records of one file. -/
def readSessionSummary (records : List CodexRecord) : SessionSummary :=
  records.foldl codexStep ⟨none, none, none, none, none, none⟩

/-- Lines 186–188: `firstUserMessage ?? prevUserMessage ?? lastUserMessage`,
then `fallbackMessage ? toSummary(fallbackMessage) : undefined`. -/
def codexSummaryOf (s : SessionSummary) : Option String :=
  match (s.firstUserMessage.orElse fun _ => s.prevUserMessage).orElse
      fun _ => s.lastUserMessage with
  | none => none
  | some m => if m = "" then none else toSummary m

/-- Lines 168–204: decide whether one fully-read file yields an event, and
build it.  `parseDate` models `new Date(string)` plus the `Number.isNaN`
validity check. -/
def codexFileEvent (parseDate : String → Option Int) (cwd : String)
    (fileName : String) (s : SessionSummary) : Option ToolEvent :=
  if !truthyStr s.sessionId || !truthyStr s.sessionCwd ||
      !truthyStr s.lastTimestamp then none
  else if !matchesCwd cwd (s.sessionCwd.getD "") then none
  else
    match parseDate (s.lastTimestamp.getD "") with
    | none => none
    | some occurredAt =>
      match codexSummaryOf s with
      | none => none
      | some shortSummary =>
        some
          { id := "codex-" ++ s.sessionId.getD ""
            label := "Codex CLI"
            occurredAt := occurredAt
            source := fileName
            confidence := .high
            summary := some shortSummary
            resume := some ⟨"codex", ["resume", s.sessionId.getD ""], .resume⟩ }

/-- The `for (const entry of fileStats)` loop of `codexProvider.fetchEvents`:
accumulate events file by file, stopping once `effectiveLimit` is reached. -/
def codexLoop (parseDate : String → Option Int) (cwd : String)
    (effectiveLimit : Nat) (events : List ToolEvent) :
    List (String × List CodexRecord) → List ToolEvent
  | [] => events
  | (fileName, records) :: rest =>
    match codexFileEvent parseDate cwd fileName (readSessionSummary records) with
    | none => codexLoop parseDate cwd effectiveLimit events rest
    | some ev =>
      if (events ++ [ev]).length ≥ effectiveLimit then events ++ [ev]
      else codexLoop parseDate cwd effectiveLimit (events ++ [ev]) rest

/-- `codexProvider.fetchEvents` over the mtime-sorted decoded session files. -/
def codexFetchEvents (parseDate : String → Option Int) (cwd : String)
    (files : List (String × List CodexRecord)) (limit : Option Nat) :
    List ToolEvent :=
  codexLoop parseDate cwd (limit.getD 50) [] files

/-! ## Gemini parser (`src/providers/gemini/index.ts`)

Scoping is structural (the per-project hash directory), so the model receives
the decoded, mtime-sorted documents of the chats directory as
`(document, fileName)` pairs; unreadable or unparsable files never reach the
per-document logic. -/

structure GeminiMessage where
  mtype : Option String
  content : Option String
deriving DecidableEq, Repr

structure GeminiChatSession where
  sessionId : Option String
  lastUpdated : Option String
  messages : Option (List GeminiMessage)
deriving DecidableEq, Repr

/-- Lines 91–100: the messages tagged `user` that carry string content. -/
def geminiUserMessages (doc : GeminiChatSession) : List GeminiMessage :=
  (doc.messages.getD []).filter
    (fun m => m.mtype == some "user" && m.content.isSome)

/-- Lines 101–104: `toSummary(firstUser ?? lastUser)` where `firstUser` is
`userMessages[0]?.content` and `lastUser` the last user message's content. -/
def geminiSummaryOf (doc : GeminiChatSession) : Option String :=
  (((geminiUserMessages doc).head?.bind (·.content)).orElse
    fun _ => (geminiUserMessages doc).getLast?.bind (·.content)).bind toSummary

/-- Lines 85–122: decide whether one chat document yields an event. -/
def geminiFileEvent (parseDate : String → Option Int)
    (doc : GeminiChatSession) (fileName : String) : Option ToolEvent :=
  match doc.lastUpdated with
  | none => none
  | some lastUpdated =>
    match parseDate lastUpdated with
    | none => none
    | some occurredAt =>
      match geminiSummaryOf doc with
      | none => none
      | some summary =>
        some
          { id := "gemini-" ++ (doc.sessionId.getD fileName)
            label := "Gemini CLI"
            occurredAt := occurredAt
            source := "gemini-tmp"
            confidence := .medium
            summary := some summary
            resume := some ⟨"gemini", [], .launch⟩ }

/-- The file loop of `readGeminiSessions`: the limit check runs before each
file is read. -/
def geminiLoop (parseDate : String → Option Int) (limit : Option Nat)
    (events : List ToolEvent) :
    List (GeminiChatSession × String) → List ToolEvent
  | [] => events
  | (doc, fileName) :: rest =>
    if match limit with | some n => decide (events.length ≥ n) | none => false then
      events
    else
      match geminiFileEvent parseDate doc fileName with
      | none => geminiLoop parseDate limit events rest
      | some ev => geminiLoop parseDate limit (events ++ [ev]) rest

/-- `readGeminiSessions` over the decoded documents. -/
def readGeminiSessions (parseDate : String → Option Int)
    (files : List (GeminiChatSession × String)) (limit : Option Nat) :
    List ToolEvent :=
  geminiLoop parseDate limit [] files

/-- `geminiProvider.fetchEvents`: always passes `limit ?? 50` down. -/
def geminiFetchEvents (parseDate : String → Option Int)
    (files : List (GeminiChatSession × String)) (limit : Option Nat) :
    List ToolEvent :=
  readGeminiSessions parseDate files (some (limit.getD 50))

/-! ## Predicates and fixtures used by the specification theorems -/

/-- At most one of two adjacent characters is whitespace. -/
def sepOk (a b : Char) : Prop := isJsWs a = false ∨ isJsWs b = false

instance : DecidableRel sepOk := fun a b =>
  inferInstanceAs (Decidable (isJsWs a = false ∨ isJsWs b = false))

/-- Every whitespace character is a plain space. -/
def allSpace (l : List Char) : Prop := ∀ c ∈ l, isJsWs c = true → c = ' '

def noLeadWs (l : List Char) : Prop := ∀ c ∈ l.head?, isJsWs c = false

def noTrailWs (l : List Char) : Prop := ∀ c ∈ l.getLast?, isJsWs c = false

/-- The normal form produced by `replace(/\s+/g, ' ').trim()`: whitespace
collapsed to single interior spaces, none at either end. -/
def normalizedChars (l : List Char) : Prop :=
  allSpace l ∧ List.Chain' sepOk l ∧ noLeadWs l ∧ noTrailWs l

/-- The result carries a trailing `"..."`. -/
def endsWithDots (s : String) : Bool :=
  List.isPrefixOf ['.', '.', '.'] s.toList.reverse

/-- The normalized form of an input string: what
`input.replace(/\s+/g, ' ').trim()` computes. -/
def normalizeWs (input : String) : List Char :=
  jsTrim (collapseWs input.toList)

/-- Events sorted by `occurredAt` descending. -/
def sortedByTimeDesc (l : List ToolEvent) : Prop :=
  l.Pairwise (fun a b => b.occurredAt ≤ a.occurredAt)

/-- A concrete event used as witness input. -/
def sampleEvent : ToolEvent :=
  { id := "claude-s1"
    label := "Claude Code"
    occurredAt := 200
    source := "history.jsonl"
    confidence := .high
    summary := some "hello"
    resume := some ⟨"claude", ["--resume", "s1"], .resume⟩ }

/-! ## Normalization lemmas for `toSummary` -/

theorem allSpace_collapseAux (l : List Char) : ∀ b, allSpace (collapseAux b l) := by
  induction l with
  | nil => intro b c hc; simp [collapseAux] at hc
  | cons c rest ih =>
    intro b d hd hw
    by_cases hc : isJsWs c = true
    · cases b with
      | true =>
        simp only [collapseAux, hc, if_true] at hd
        exact ih true d hd hw
      | false =>
        simp only [collapseAux, hc, if_true] at hd
        rcases List.mem_cons.1 hd with h | h
        · exact h
        · exact ih true d h hw
    · simp only [collapseAux, hc, if_neg, Bool.false_eq_true, not_false_iff] at hd
      rcases List.mem_cons.1 hd with h | h
      · subst h; exact absurd hw hc
      · exact ih false d h hw

theorem head_collapseAux_true (l : List Char) :
    ∀ c ∈ (collapseAux true l).head?, isJsWs c = false := by
  induction l with
  | nil => intro c hc; simp [collapseAux] at hc
  | cons c rest ih =>
    intro d hd
    by_cases hc : isJsWs c = true
    · simp only [collapseAux, hc, if_true] at hd
      exact ih d hd
    · simp only [collapseAux, hc, Bool.false_eq_true, not_false_iff, if_neg,
        List.head?_cons, Option.mem_def, Option.some.injEq] at hd
      subst hd
      exact Bool.not_eq_true _ ▸ hc

theorem chain_collapseAux (l : List Char) : ∀ b, List.Chain' sepOk (collapseAux b l) := by
  induction l with
  | nil => intro b; simp [collapseAux]
  | cons c rest ih =>
    intro b
    by_cases hc : isJsWs c = true
    · cases b with
      | true => simpa [collapseAux, hc] using ih true
      | false =>
        simp only [collapseAux, hc, if_true]
        refine List.chain'_cons'.2 ⟨?_, ih true⟩
        intro y hy
        exact Or.inr (head_collapseAux_true rest y hy)
    · simp only [collapseAux, hc, Bool.false_eq_true, not_false_iff, if_neg]
      refine List.chain'_cons'.2 ⟨?_, ih false⟩
      intro y _
      exact Or.inl (Bool.not_eq_true _ ▸ hc)

theorem collapseAux_eq_self (l : List Char) (hall : allSpace l)
    (hchain : List.Chain' sepOk l) :
    collapseAux false l = l ∧ (noLeadWs l → collapseAux true l = l) := by
  induction l with
  | nil => exact ⟨rfl, fun _ => rfl⟩
  | cons c rest ih =>
    have hall' : allSpace rest := fun d hd => hall d (List.mem_cons_of_mem _ hd)
    have hchain' : List.Chain' sepOk rest := (List.chain'_cons'.1 hchain).2
    have hhead := (List.chain'_cons'.1 hchain).1
    rcases ih hall' hchain' with ⟨ihf, iht⟩
    by_cases hc : isJsWs c = true
    · have hsp : c = ' ' := hall c (List.mem_cons_self c rest) hc
      have hlead : noLeadWs rest := by
        intro y hy
        rcases hhead y hy with h | h
        · exact absurd hc (by simp [h])
        · exact h
      subst hsp
      constructor
      · simp [collapseAux, hc, iht hlead]
      · intro hl
        have := hl ' ' (by simp)
        exact absurd hc (by simp [this])
    · constructor
      · simp only [collapseAux, hc, Bool.false_eq_true, not_false_iff, if_neg, ihf]
      · intro _
        simp only [collapseAux, hc, Bool.false_eq_true, not_false_iff, if_neg, ihf]

theorem head_dropWhile_ws (l : List Char) :
    ∀ c ∈ (l.dropWhile isJsWs).head?, isJsWs c = false := by
  intro c hc
  have := List.head?_dropWhile_not isJsWs l
  simp only [Option.mem_def] at hc
  rw [hc] at this
  simpa using this

theorem dropWhile_eq_self_of_head (p : Char → Bool) (l : List Char)
    (h : ∀ c ∈ l.head?, p c = false) : l.dropWhile p = l := by
  cases l with
  | nil => rfl
  | cons c rest =>
    have := h c (by simp)
    simp [List.dropWhile, this]

theorem sepOk_flip {a b : Char} (h : sepOk a b) : sepOk b a := h.symm

theorem chain_reverse_sepOk {m : List Char} (h : List.Chain' sepOk m) :
    List.Chain' sepOk m.reverse := by
  rw [List.chain'_reverse]
  exact h.imp fun a b hh => sepOk_flip hh

theorem chain_jsTrim (l : List Char) (h : List.Chain' sepOk l) :
    List.Chain' sepOk (jsTrim l) := by
  unfold jsTrim
  have h1 : List.Chain' sepOk (l.dropWhile isJsWs) :=
    h.suffix (List.dropWhile_suffix isJsWs)
  have h3 : List.Chain' sepOk ((l.dropWhile isJsWs).reverse.dropWhile isJsWs) :=
    (chain_reverse_sepOk h1).suffix (List.dropWhile_suffix isJsWs)
  exact chain_reverse_sepOk h3

theorem mem_jsTrim {c : Char} {l : List Char} (h : c ∈ jsTrim l) : c ∈ l := by
  unfold jsTrim at h
  rw [List.mem_reverse] at h
  have h1 := (List.dropWhile_sublist (l := (l.dropWhile isJsWs).reverse) isJsWs).mem h
  rw [List.mem_reverse] at h1
  exact (List.dropWhile_sublist isJsWs).mem h1

theorem allSpace_jsTrim {l : List Char} (h : allSpace l) : allSpace (jsTrim l) :=
  fun c hc hw => h c (mem_jsTrim hc) hw

theorem noLeadWs_jsTrim (l : List Char) : noLeadWs (jsTrim l) := by
  intro c hc
  unfold jsTrim at hc
  simp only [List.head?_reverse, Option.mem_def] at hc
  obtain ⟨t, ht⟩ := List.dropWhile_suffix (l := (l.dropWhile isJsWs).reverse) isJsWs
  have hlast : (t ++ (l.dropWhile isJsWs).reverse.dropWhile isJsWs).getLast? = some c := by
    rw [List.getLast?_append, hc]
    rfl
  rw [ht, List.getLast?_reverse] at hlast
  exact head_dropWhile_ws l c hlast

theorem noTrailWs_jsTrim (l : List Char) : noTrailWs (jsTrim l) := by
  intro c hc
  unfold jsTrim at hc
  simp only [List.getLast?_reverse, Option.mem_def] at hc
  exact head_dropWhile_ws _ c hc

theorem normalized_jsTrim_collapse (l : List Char) :
    normalizedChars (jsTrim (collapseWs l)) := by
  refine ⟨allSpace_jsTrim (allSpace_collapseAux l false),
    chain_jsTrim _ (chain_collapseAux l false), noLeadWs_jsTrim _, noTrailWs_jsTrim _⟩

theorem jsTrim_eq_self {l : List Char} (h1 : noLeadWs l) (h2 : noTrailWs l) :
    jsTrim l = l := by
  unfold jsTrim
  rw [dropWhile_eq_self_of_head _ _ h1]
  rw [dropWhile_eq_self_of_head _ _ (by simpa using h2)]
  exact List.reverse_reverse l

theorem normalized_roundtrip {l : List Char} (h : normalizedChars l) :
    jsTrim (collapseWs l) = l := by
  obtain ⟨hall, hchain, hlead, htrail⟩ := h
  unfold collapseWs
  rw [(collapseAux_eq_self l hall hchain).1]
  exact jsTrim_eq_self hlead htrail

theorem toSummary_eq_match (input : String) :
    toSummary input =
      if input = "" then none
      else if (normalizeWs input).isEmpty then none
      else if (normalizeWs input).length > 120 then
        some (((normalizeWs input).take 117).asString ++ "...")
      else some (normalizeWs input).asString := rfl

theorem normalized_truncated {t : List Char} (hnorm : normalizedChars t)
    (hlen : 120 < t.length) :
    normalizedChars (t.take 117 ++ ['.', '.', '.']) := by
  obtain ⟨hall, hchain, hlead, _⟩ := hnorm
  have hdot : isJsWs '.' = false := by decide
  refine ⟨?_, ?_, ?_, ?_⟩
  · intro c hc hw
    rcases List.mem_append.1 hc with h | h
    · exact hall c (List.take_subset 117 t h) hw
    · simp only [List.mem_cons, List.not_mem_nil, or_false] at h
      rcases h with h | h | h <;> (subst h; exact absurd hw (by decide))
  · have hdots : List.Chain' sepOk ['.', '.', '.'] :=
      List.chain'_cons.2 ⟨Or.inl hdot,
        List.chain'_cons.2 ⟨Or.inl hdot, List.chain'_singleton _⟩⟩
    refine List.chain'_append.2 ⟨hchain.take 117, hdots, ?_⟩
    intro x _ y hy
    simp only [List.head?_cons, Option.mem_def, Option.some.injEq] at hy
    subst hy
    exact Or.inr hdot
  · intro c hc
    cases t with
    | nil => simp at hlen
    | cons c0 rest =>
      simp only [List.take_succ_cons, List.cons_append, List.head?_cons,
        Option.mem_def, Option.some.injEq] at hc
      subst hc
      exact hlead c0 (by simp)
  · intro c hc
    simp only [List.getLast?_append, Option.mem_def] at hc
    have : (['.', '.', '.'] : List Char).getLast? = some '.' := rfl
    rw [this] at hc
    simp only [Option.or_some, Option.some.injEq] at hc
    subst hc
    exact hdot

theorem toSummary_some_spec {input s : String} (h : toSummary input = some s) :
    normalizedChars s.toList ∧ s ≠ "" ∧ s.length ≤ 120 ∧ toSummary s = some s ∧
      (120 < (normalizeWs input).length → endsWithDots s = true) := by
  rw [toSummary_eq_match] at h
  by_cases h0 : input = ""
  · simp [h0] at h
  · rw [if_neg h0] at h
    by_cases hemp : (normalizeWs input).isEmpty
    · simp [hemp] at h
    · rw [if_neg hemp] at h
      have hnorm : normalizedChars (normalizeWs input) :=
        normalized_jsTrim_collapse input.toList
      by_cases hlen : (normalizeWs input).length > 120
      · rw [if_pos hlen] at h
        set t := normalizeWs input with ht
        have hs : (t.take 117).asString ++ "..." = s := Option.some.inj h
        have hdata : s.toList = t.take 117 ++ ['.', '.', '.'] := by
          rw [← hs]
          show ((t.take 117).asString ++ "...").data = _
          rw [String.data_append]
          rfl
        have hnorm' := normalized_truncated hnorm hlen
        rw [← hdata] at hnorm'
        have hlen117 : (t.take 117).length = 117 := by
          rw [List.length_take]
          omega
        have hslen : s.length = 120 := by
          show s.toList.length = 120
          rw [hdata, List.length_append, hlen117]
          rfl
        have hsne : s ≠ "" := by
          intro hcon
          rw [hcon] at hslen
          simp at hslen
        refine ⟨hnorm', hsne, by omega, ?_, ?_⟩
        · rw [toSummary_eq_match, if_neg hsne]
          have hrt : normalizeWs s = s.toList := normalized_roundtrip hnorm'
          rw [hrt]
          have : s.toList.isEmpty = false := by
            rw [hdata]
            simp
          rw [this]
          simp only [Bool.false_eq_true, not_false_iff, if_neg]
          have : ¬s.toList.length > 120 := by
            have : s.toList.length = 120 := hslen
            omega
          rw [if_neg this]
          rw [String.asString_toList]
        · intro _
          unfold endsWithDots
          rw [List.isPrefixOf_iff_prefix, hdata, List.reverse_append]
          exact ⟨(t.take 117).reverse, rfl⟩
      · rw [if_neg hlen] at h
        have hs : (normalizeWs input).asString = s := Option.some.inj h
        have hdata : s.toList = normalizeWs input := by
          rw [← hs]
          exact List.toList_asString _
        rw [← hdata] at hnorm
        have hne : s.toList ≠ [] := by
          rw [hdata]
          intro hcon
          rw [List.isEmpty_iff] at hemp
          exact hemp hcon
        have hsne : s ≠ "" := by
          intro hcon
          rw [hcon] at hne
          exact hne rfl
        have hslen : s.length ≤ 120 := by
          show s.toList.length ≤ 120
          rw [hdata]
          omega
        refine ⟨hnorm, hsne, hslen, ?_, ?_⟩
        · rw [toSummary_eq_match, if_neg hsne]
          have hrt : normalizeWs s = s.toList := normalized_roundtrip hnorm
          rw [hrt]
          have hie : s.toList.isEmpty = false := by
            cases htl : s.toList with
            | nil => exact absurd htl hne
            | cons a b => rfl
          rw [hie]
          simp only [Bool.false_eq_true, not_false_iff, if_neg]
          have : ¬s.toList.length > 120 := by
            have : s.toList.length = s.length := rfl
            omega
          rw [if_neg this, String.asString_toList]
        · intro hcon
          rw [← hdata] at hcon
          have : s.toList.length = s.length := rfl
          omega

/-! ## Shared lemmas about the orchestrator -/

theorem timeGE_trans (a b c : ToolEvent) (h1 : timeGE a b) (h2 : timeGE b c) :
    timeGE a c = true := by
  simp only [timeGE, decide_eq_true_eq] at *
  omega

theorem timeGE_total (a b : ToolEvent) : timeGE a b || timeGE b a := by
  simp only [timeGE, Bool.or_eq_true, decide_eq_true_eq]
  omega

theorem sortByTime_perm (l : List ToolEvent) : (sortByTime l).Perm l :=
  List.mergeSort_perm l timeGE

theorem sortByTime_sorted (l : List ToolEvent) : sortedByTimeDesc (sortByTime l) := by
  have h := List.sorted_mergeSort timeGE_trans timeGE_total l
  exact h.imp fun hab => by
    simpa [timeGE, decide_eq_true_eq] using hab

theorem scanProviders_eq (providers : List ProviderRun) (options : Option ScanOptions) :
    scanProviders providers options =
      { events :=
          match (options.getD ⟨none, none⟩).limit with
          | some n => (sortByTime (providers.map absorbFailure).flatten).take n
          | none => sortByTime (providers.map absorbFailure).flatten
        latest :=
          (match (options.getD ⟨none, none⟩).limit with
          | some n => (sortByTime (providers.map absorbFailure).flatten).take n
          | none => sortByTime (providers.map absorbFailure).flatten).head? } := rfl

example : toSummary "  hello   world " = some "hello world" := by decide
example : toSummary "   " = none := by decide
example : isUiEcho "xx Page: 3" = true := by decide
example : isUiEcho "hello" = false := by decide
example : matchesCwd "/a/b" "/a" = true := by decide
example : matchesCwd "/a" "/a/b" = true := by decide
example : matchesCwd "/a/b" "/a/c" = false := by decide
example : matchesCwd "/ab" "/a" = false := by decide

/-! ## Claim theorems -/

/-- C1: for every list of providers and every options value, the events list
returned by `scanProviders` is the merge of all providers' results sorted by
`occurredAt` descending; when options carries a numeric limit the merged
sequence is truncated to at most that many entries after the merge; and the
returned `latest` field equals the first element of the returned events list,
or `none` when the events list is empty. -/
theorem scanProviders_merges_sorts_limits
    (providers : List ProviderRun) (options : Option ScanOptions) :
    ∃ merged : List ToolEvent,
      merged.Perm (providers.map absorbFailure).flatten ∧
      sortedByTimeDesc merged ∧
      (scanProviders providers options).events =
        (match (options.getD ⟨none, none⟩).limit with
         | some n => merged.take n
         | none => merged) ∧
      (scanProviders providers options).events.length ≤
        (options.getD ⟨none, none⟩).limit.getD
          (scanProviders providers options).events.length ∧
      sortedByTimeDesc (scanProviders providers options).events ∧
      (scanProviders providers options).latest =
        (scanProviders providers options).events.head? := by
  refine ⟨sortByTime (providers.map absorbFailure).flatten,
    sortByTime_perm _, sortByTime_sorted _, ?_, ?_, ?_, ?_⟩
  · rw [scanProviders_eq]
  · rw [scanProviders_eq]
    cases hl : (options.getD ⟨none, none⟩).limit with
    | none => simp
    | some n => simp
  · rw [scanProviders_eq]
    cases hl : (options.getD ⟨none, none⟩).limit with
    | none => exact sortByTime_sorted _
    | some n =>
      simp only []
      exact (sortByTime_sorted _).sublist (List.take_sublist n _)
  · rw [scanProviders_eq]

theorem map_absorb_set_ok_nil :
    ∀ (l : List ProviderRun) (i : Nat), l[i]? = some .error →
      (l.set i (.ok [])).map absorbFailure = l.map absorbFailure := by
  intro l
  induction l with
  | nil => intro i h; simp at h
  | cons p rest ih =>
    intro i h
    cases i with
    | zero =>
      simp only [List.getElem?_cons_zero, Option.some.injEq] at h
      subst h
      rfl
    | succ j =>
      simp only [List.getElem?_cons_succ] at h
      simp only [List.set_cons_succ, List.map_cons]
      rw [ih j h]

/-- C2: if one provider's `fetchEvents` call raises an error, `scanProviders`
returns exactly the result it would return had that provider contributed an
empty list: the error is absorbed and every other provider's events are
unaffected. -/
theorem scanProviders_absorbs_failure
    (providers : List ProviderRun) (i : Nat) (options : Option ScanOptions)
    (h : providers[i]? = some .error) :
    scanProviders providers options =
      scanProviders (providers.set i (.ok [])) options := by
  rw [scanProviders_eq, scanProviders_eq, map_absorb_set_ok_nil providers i h]

/-- Witness for C2 at a concrete failing provider list. -/
theorem scanProviders_absorbs_failure_witness :
    ([ProviderRun.error, .ok [sampleEvent]][0]? = some ProviderRun.error) ∧
      scanProviders [ProviderRun.error, .ok [sampleEvent]] none =
        scanProviders ([ProviderRun.error, .ok [sampleEvent]].set 0 (.ok []))
          none :=
  ⟨rfl, scanProviders_absorbs_failure _ 0 none rfl⟩

/-- C7 as stated is false: a result may end in `"..."` even though the
normalized input did not exceed 120 characters; at input `"hi..."` the
summary is `"hi..."` itself, carrying the `"..."` suffix without truncation. -/
theorem toSummary_ellipsis_iff_counterexample :
    toSummary "hi..." = some "hi..." ∧
      ¬(endsWithDots "hi..." = true ↔
          120 < (normalizeWs "hi...").length) := by
  constructor
  · decide
  · decide

/-- C7 (amended): `toSummary` is idempotent on its defined results, and every
defined result is whitespace-collapsed, non-empty and at most 120 characters
long, carrying a `"..."` suffix whenever the normalized input exceeded 120
characters (a short input that itself ends in dots also carries the suffix,
which is why "exactly when" fails). -/
theorem toSummary_idempotent_normalized {input s : String}
    (h : toSummary input = some s) :
    toSummary s = some s ∧ normalizedChars s.toList ∧ s ≠ "" ∧
      s.length ≤ 120 ∧
      (120 < (normalizeWs input).length → endsWithDots s = true) := by
  obtain ⟨h1, h2, h3, h4, h5⟩ := toSummary_some_spec h
  exact ⟨h4, h1, h2, h3, h5⟩

/-- Witness for C7 (amended) at the concrete input `"a  b"`. -/
theorem toSummary_idempotent_normalized_witness :
    toSummary "a  b" = some "a b" ∧
      (toSummary "a b" = some "a b" ∧ normalizedChars ("a b" : String).toList ∧
        ("a b" : String) ≠ "" ∧ ("a b" : String).length ≤ 120 ∧
        (120 < (normalizeWs "a  b").length → endsWithDots "a b" = true)) :=
  ⟨by decide, toSummary_idempotent_normalized (by decide)⟩

/-- C8: a well-formed Claude record missing any of `sessionId`, `timestamp` or
`project` contributes nothing: the per-record step leaves the session map
unchanged, so it neither creates a session nor alters an existing aggregate
and no event can derive from it. -/
theorem claude_missing_field_skipped (cwd : String)
    (sessions : List (String × SessionData)) (r : ClaudeRecord)
    (h : r.sessionId = none ∨ r.timestamp = none ∨ r.project = none) :
    processClaudeRecord cwd sessions r = sessions := by
  rcases h with h | h | h
  · simp [processClaudeRecord, h, truthyStr]
  · simp [processClaudeRecord, h, truthyInt]
  · simp [processClaudeRecord, h, truthyStr]

/-- Witness for C8: a record with no `sessionId` is skipped. -/
theorem claude_missing_field_skipped_witness :
    (ClaudeRecord.mk (some 1) (some "hi") none (some "/p")).sessionId = none ∧
      processClaudeRecord "/p" [] ⟨some 1, some "hi", none, some "/p"⟩ = [] :=
  ⟨rfl, claude_missing_field_skipped "/p" [] _ (Or.inl rfl)⟩

/-- C9: in the Claude per-session aggregation, a record with timestamp
`>=` the running last timestamp becomes the new last (the old last moves to
the previous slot), so a later-indexed record with an equal timestamp counts
as more recent; and a record strictly between the previous and last
timestamps replaces only the previous slot. -/
theorem claude_update_tiebreak (ex : SessionData) (ts : Int) (summary : String) :
    (ex.firstTimestamp ≤ ex.lastTimestamp → ts ≥ ex.lastTimestamp →
      updateExisting ex ts summary =
        { ex with
          prevTimestamp := some ex.lastTimestamp
          prev := ex.last
          lastTimestamp := ts
          last := some summary }) ∧
    (∀ pt, ex.prevTimestamp = some pt → ex.firstTimestamp ≤ pt → pt < ts →
      ts < ex.lastTimestamp →
      updateExisting ex ts summary =
        { ex with prevTimestamp := some ts, prev := some summary }) := by
  constructor
  · intro hfl hge
    have h1 : ¬(ts < ex.firstTimestamp) := by omega
    simp only [updateExisting, if_neg h1, ge_iff_le, if_pos hge]
  · intro pt hprev hfp hpt hlt
    have h1 : ¬(ts < ex.firstTimestamp) := by omega
    have h2 : ¬(ex.lastTimestamp ≤ ts) := by omega
    simp only [updateExisting, if_neg h1, ge_iff_le, if_neg h2, hprev]
    rw [if_pos]
    simp only [Bool.or_eq_true, decide_eq_true_eq]
    exact Or.inr hpt

/-- Witness for C9 at concrete aggregates. -/
theorem claude_update_tiebreak_witness :
    updateExisting ⟨1, 5, some 2, some "a", some "b", some "c"⟩ 5 "d" =
        ⟨1, 5, some 5, some "a", some "d", some "b"⟩ ∧
      updateExisting ⟨1, 5, some 2, some "a", some "b", some "c"⟩ 3 "d" =
        ⟨1, 5, some 3, some "a", some "b", some "d"⟩ :=
  ⟨(claude_update_tiebreak ⟨1, 5, some 2, some "a", some "b", some "c"⟩ 5 "d").1
      (by decide) (by decide),
    (claude_update_tiebreak ⟨1, 5, some 2, some "a", some "b", some "c"⟩ 3 "d").2
      2 rfl (by decide) (by decide) (by decide)⟩

/-- C4: the Claude and Codex parsers emit a session only when its recorded
working directory passes the shared scoping rule (equal to `cwd`, ancestor of
`cwd`, or descendant of `cwd`, path-separator-delimited): an out-of-scope
Claude record leaves the session map unchanged, an out-of-scope Codex file
yields no event, and every emitted Codex event passed the rule. -/
theorem scoping_excludes_out_of_scope :
    (∀ (cwd : String) (sessions : List (String × SessionData))
        (r : ClaudeRecord) (proj : String), r.project = some proj →
        matchesCwd cwd proj = false →
        processClaudeRecord cwd sessions r = sessions) ∧
    (∀ (parseDate : String → Option Int) (cwd fn : String)
        (s : SessionSummary) (scwd : String), s.sessionCwd = some scwd →
        matchesCwd cwd scwd = false →
        codexFileEvent parseDate cwd fn s = none) ∧
    (∀ (parseDate : String → Option Int) (cwd fn : String)
        (s : SessionSummary) (ev : ToolEvent),
        codexFileEvent parseDate cwd fn s = some ev →
        matchesCwd cwd (s.sessionCwd.getD "") = true) := by
  refine ⟨?_, ?_, ?_⟩
  · intro cwd sessions r proj hproj hscope
    by_cases h1 :
        (!truthyStr r.sessionId || !truthyInt r.timestamp ||
          !truthyStr r.project) = true
    · simp [processClaudeRecord, h1]
    · simp only [processClaudeRecord, h1, Bool.false_eq_true, not_false_iff,
        if_neg, hproj, Option.getD_some, hscope]
      simp
  · intro parseDate cwd fn s scwd hcwd hscope
    by_cases h1 :
        (!truthyStr s.sessionId || !truthyStr s.sessionCwd ||
          !truthyStr s.lastTimestamp) = true
    · simp [codexFileEvent, h1]
    · simp [codexFileEvent, h1, hcwd, hscope]
  · intro parseDate cwd fn s ev hev
    by_cases hscope : matchesCwd cwd (s.sessionCwd.getD "") = true
    · exact hscope
    · exfalso
      by_cases h1 :
          (!truthyStr s.sessionId || !truthyStr s.sessionCwd ||
            !truthyStr s.lastTimestamp) = true
      · simp [codexFileEvent, h1] at hev
      · rw [Bool.not_eq_true] at hscope
        simp [codexFileEvent, h1, hscope] at hev

/-- Witness for C4 at concrete out-of-scope and in-scope inputs. -/
theorem scoping_excludes_out_of_scope_witness :
    processClaudeRecord "/a/b" []
        ⟨some 1, some "hi", some "s1", some "/a/c"⟩ = [] ∧
      codexFileEvent (fun _ => some 7) "/a/b" "f.jsonl"
        ⟨some "s1", some "/a/c", some "hi", some "hi", none, some "t"⟩ =
          none ∧
      matchesCwd "/a/b"
        ((SessionSummary.mk (some "s1") (some "/a/b/c") (some "hi") (some "hi")
          none (some "t")).sessionCwd.getD "") = true :=
  ⟨scoping_excludes_out_of_scope.1 "/a/b" [] _ "/a/c" rfl (by decide),
    scoping_excludes_out_of_scope.2.1 (fun _ => some 7) "/a/b" "f.jsonl" _
      "/a/c" rfl (by decide),
    scoping_excludes_out_of_scope.2.2 (fun _ => some 7) "/a/b" "f.jsonl" _
      ⟨"codex-s1", "Codex CLI", 7, "f.jsonl", .high, some "hi",
        some ⟨"codex", ["resume", "s1"], .resume⟩⟩ (by decide)⟩

theorem truthyStr_some {o : Option String} (h : truthyStr o = true) :
    ∃ t, o = some t := by
  cases o with
  | none => exact absurd h (by simp [truthyStr])
  | some t => exact ⟨t, rfl⟩

theorem codexFileEvent_some_inv {parseDate : String → Option Int}
    {cwd fn : String} {s : SessionSummary} {ev : ToolEvent}
    (hev : codexFileEvent parseDate cwd fn s = some ev) :
    truthyStr s.sessionId = true ∧ truthyStr s.sessionCwd = true ∧
      truthyStr s.lastTimestamp = true ∧
      (∃ t v, s.lastTimestamp = some t ∧ parseDate t = some v) ∧
      matchesCwd cwd (s.sessionCwd.getD "") = true ∧
      ev.summary = codexSummaryOf s := by
  unfold codexFileEvent at hev
  split at hev
  · exact absurd hev (by simp)
  · rename_i hC1
    split at hev
    · exact absurd hev (by simp)
    · rename_i hC2
      split at hev
      · exact absurd hev (by simp)
      · rename_i v hpd
        split at hev
        · exact absurd hev (by simp)
        · rename_i sum hsum
          simp only [Bool.or_eq_true, Bool.not_eq_true', not_or,
            Bool.not_eq_false] at hC1 hC2
          obtain ⟨⟨h1, h2⟩, h3⟩ := hC1
          obtain ⟨t, ht⟩ := truthyStr_some h3
          have hevv := Option.some.inj hev
          refine ⟨h1, h2, h3, ⟨t, v, ht, ?_⟩, hC2, ?_⟩
          · rw [ht] at hpd
            simpa using hpd
          · rw [← hevv, hsum]

/-- C5: a fully-read Codex file is discarded exactly when the session id,
working directory or usable timestamp is missing, the timestamp fails to
parse as a valid instant, scoping fails, or no summary text survives; and an
emitted event's summary follows the preference order first non-echo user
message, then previous, then last-seen (rejecting the file otherwise). -/
theorem codex_file_discard_iff (parseDate : String → Option Int)
    (cwd fn : String) (s : SessionSummary) :
    (codexFileEvent parseDate cwd fn s = none ↔
      truthyStr s.sessionId = false ∨ truthyStr s.sessionCwd = false ∨
        truthyStr s.lastTimestamp = false ∨
        (∀ t, s.lastTimestamp = some t → parseDate t = none) ∨
        matchesCwd cwd (s.sessionCwd.getD "") = false ∨
        codexSummaryOf s = none) ∧
    (∀ ev, codexFileEvent parseDate cwd fn s = some ev →
      ev.summary = codexSummaryOf s) := by
  constructor
  · constructor
    · intro h
      unfold codexFileEvent at h
      split at h
      · rename_i hC1
        simp only [Bool.or_eq_true, Bool.not_eq_true'] at hC1
        rcases hC1 with (h1 | h2) | h3
        · exact Or.inl h1
        · exact Or.inr (Or.inl h2)
        · exact Or.inr (Or.inr (Or.inl h3))
      · rename_i hC1
        split at h
        · rename_i hC2
          simp only [Bool.not_eq_true'] at hC2
          exact Or.inr (Or.inr (Or.inr (Or.inr (Or.inl hC2))))
        · rename_i hC2
          split at h
          · rename_i hpd
            refine Or.inr (Or.inr (Or.inr (Or.inl ?_)))
            intro t ht
            rw [ht] at hpd
            simpa using hpd
          · rename_i v hpd
            split at h
            · rename_i hsum
              exact Or.inr (Or.inr (Or.inr (Or.inr (Or.inr hsum))))
            · exact absurd h (by simp)
    · intro hrhs
      cases heq : codexFileEvent parseDate cwd fn s with
      | none => rfl
      | some ev =>
        exfalso
        obtain ⟨h1, h2, h3, ⟨t, v, ht, hpd⟩, h5, hs⟩ :=
          codexFileEvent_some_inv heq
        rcases hrhs with hh | hh | hh | hh | hh | hh
        · rw [h1] at hh; exact absurd hh (by simp)
        · rw [h2] at hh; exact absurd hh (by simp)
        · rw [h3] at hh; exact absurd hh (by simp)
        · rw [hh t ht] at hpd; exact absurd hpd (by simp)
        · rw [h5] at hh; exact absurd hh (by simp)
        · -- the event was built from `codexSummaryOf s = some _`
          unfold codexFileEvent at heq
          split at heq
          · exact absurd heq (by simp)
          · split at heq
            · exact absurd heq (by simp)
            · split at heq
              · exact absurd heq (by simp)
              · split at heq
                · exact absurd heq (by simp)
                · rename_i sum hsum
                  rw [hsum] at hh
                  exact absurd hh (by simp)
  · intro ev hev
    exact (codexFileEvent_some_inv hev).2.2.2.2.2

/-- Witness for C5 at a concrete session summary that yields an event. -/
theorem codex_file_discard_iff_witness :
    codexFileEvent (fun _ => some 9) "/w" "a.jsonl"
        ⟨some "sX", some "/w", some "first msg", some "last msg",
          some "prev msg", some "ts"⟩ =
      some ⟨"codex-sX", "Codex CLI", 9, "a.jsonl", .high, some "first msg",
        some ⟨"codex", ["resume", "sX"], .resume⟩⟩ ∧
      (ToolEvent.mk "codex-sX" "Codex CLI" 9 "a.jsonl" .high (some "first msg")
        (some ⟨"codex", ["resume", "sX"], .resume⟩)).summary =
        codexSummaryOf ⟨some "sX", some "/w", some "first msg",
          some "last msg", some "prev msg", some "ts"⟩ :=
  ⟨by decide,
    (codex_file_discard_iff (fun _ => some 9) "/w" "a.jsonl"
      ⟨some "sX", some "/w", some "first msg", some "last msg",
        some "prev msg", some "ts"⟩).2 _ (by decide)⟩

/-- C3: for the Claude parser, two in-scope records for one session with
distinct timestamps `t1 < t2` (in either file order) produce exactly one
event whose `occurredAt` is the session's maximum timestamp `t2` and whose
summary is the summarized text of the earliest-timestamp message, not the
latest one. -/
theorem claude_two_records_event (cwd proj sid d1 d2 s1 s2 : String)
    (t1 t2 : Int) (hsid : sid ≠ "") (hproj0 : proj ≠ "")
    (hproj : matchesCwd cwd proj = true)
    (ht1 : t1 ≠ 0) (ht2 : t2 ≠ 0) (hlt : t1 < t2)
    (he1 : isUiEcho d1 = false) (he2 : isUiEcho d2 = false)
    (hs1 : toSummary d1 = some s1) (hs2 : toSummary d2 = some s2) :
    claudeFetchEvents cwd
        [⟨some t1, some d1, some sid, some proj⟩,
          ⟨some t2, some d2, some sid, some proj⟩] none =
      [⟨"claude-" ++ sid, "Claude Code", t2, "history.jsonl", .high, some s1,
        some ⟨"claude", ["--resume", sid], .resume⟩⟩] ∧
    claudeFetchEvents cwd
        [⟨some t2, some d2, some sid, some proj⟩,
          ⟨some t1, some d1, some sid, some proj⟩] none =
      [⟨"claude-" ++ sid, "Claude Code", t2, "history.jsonl", .high, some s1,
        some ⟨"claude", ["--resume", sid], .resume⟩⟩] := by
  have hd1 : d1 ≠ "" := by
    intro h
    rw [h] at hs1
    simp [toSummary] at hs1
  have hd2 : d2 ≠ "" := by
    intro h
    rw [h] at hs2
    simp [toSummary] at hs2
  have hs1ne : s1 ≠ "" := (toSummary_some_spec hs1).2.1
  have step1 : processClaudeRecord cwd []
      ⟨some t1, some d1, some sid, some proj⟩ =
      [(sid, ⟨t1, t1, none, some s1, some s1, none⟩)] := by
    simp [processClaudeRecord, truthyStr, truthyInt, hsid, ht1, hproj0, hproj,
      he1, hs1, hd1, getAssoc]
  have step1r : processClaudeRecord cwd []
      ⟨some t2, some d2, some sid, some proj⟩ =
      [(sid, ⟨t2, t2, none, some s2, some s2, none⟩)] := by
    simp [processClaudeRecord, truthyStr, truthyInt, hsid, ht2, hproj0, hproj,
      he2, hs2, hd2, getAssoc]
  have hupd : updateExisting ⟨t1, t1, none, some s1, some s1, none⟩ t2 s2 =
      ⟨t1, t2, some t1, some s1, some s2, some s1⟩ := by
    have h1 : ¬(t2 < t1) := by omega
    have h2 : (t1 : Int) ≤ t2 := by omega
    simp [updateExisting, if_neg h1, ge_iff_le, if_pos h2]
  have hupdr : updateExisting ⟨t2, t2, none, some s2, some s2, none⟩ t1 s1 =
      ⟨t1, t2, some t1, some s1, some s2, some s1⟩ := by
    have h1 : t1 < t2 := hlt
    have h2 : ¬((t2 : Int) ≤ t1) := by omega
    simp [updateExisting, if_pos h1, ge_iff_le, if_neg h2, truthyInt]
  have step2 : processClaudeRecord cwd
      [(sid, ⟨t1, t1, none, some s1, some s1, none⟩)]
      ⟨some t2, some d2, some sid, some proj⟩ =
      [(sid, ⟨t1, t2, some t1, some s1, some s2, some s1⟩)] := by
    simp [processClaudeRecord, truthyStr, truthyInt, hsid, ht2, hproj0, hproj,
      he2, hs2, hd2, getAssoc, setAssoc, hupd]
  have step2r : processClaudeRecord cwd
      [(sid, ⟨t2, t2, none, some s2, some s2, none⟩)]
      ⟨some t1, some d1, some sid, some proj⟩ =
      [(sid, ⟨t1, t2, some t1, some s1, some s2, some s1⟩)] := by
    simp [processClaudeRecord, truthyStr, truthyInt, hsid, ht1, hproj0, hproj,
      he1, hs1, hd1, getAssoc, setAssoc, hupdr]
  have hfin : List.filterMap finalizeClaudeSession
      [(sid, ⟨t1, t2, some t1, some s1, some s2, some s1⟩)] =
      [⟨"claude-" ++ sid, "Claude Code", t2, "history.jsonl", .high, some s1,
        some ⟨"claude", ["--resume", sid], .resume⟩⟩] := by
    simp [finalizeClaudeSession, Option.orElse, hs1ne]
  constructor
  · show (sortByTime (List.filterMap finalizeClaudeSession
      (List.foldl (processClaudeRecord cwd) []
        [⟨some t1, some d1, some sid, some proj⟩,
          ⟨some t2, some d2, some sid, some proj⟩]))).take 50 = _
    rw [List.foldl_cons, step1, List.foldl_cons, step2, List.foldl_nil, hfin,
      sortByTime, List.mergeSort_singleton]
    rfl
  · show (sortByTime (List.filterMap finalizeClaudeSession
      (List.foldl (processClaudeRecord cwd) []
        [⟨some t2, some d2, some sid, some proj⟩,
          ⟨some t1, some d1, some sid, some proj⟩]))).take 50 = _
    rw [List.foldl_cons, step1r, List.foldl_cons, step2r, List.foldl_nil, hfin,
      sortByTime, List.mergeSort_singleton]
    rfl

/-- Witness for C3: the spec's concrete scenario, session `"s1"` with
`"hello"` at `t=100` and `"world"` at `t=200`, cwd equal to the project. -/
theorem claude_two_records_event_witness :
    claudeFetchEvents "/p"
        [⟨some 100, some "hello", some "s1", some "/p"⟩,
          ⟨some 200, some "world", some "s1", some "/p"⟩] none =
      [⟨"claude-s1", "Claude Code", 200, "history.jsonl", .high, some "hello",
        some ⟨"claude", ["--resume", "s1"], .resume⟩⟩] :=
  (claude_two_records_event "/p" "/p" "s1" "hello" "world" "hello" "world"
    100 200 (by decide) (by decide) (by decide) (by decide) (by decide)
    (by decide) (by decide) (by decide) (by decide) (by decide)).1

theorem finalizeClaudeSession_some_summary {entry : String × SessionData}
    {ev : ToolEvent} (h : finalizeClaudeSession entry = some ev) :
    ∃ s, ev.summary = some s ∧ s ≠ "" := by
  unfold finalizeClaudeSession at h
  split at h
  · exact absurd h (by simp)
  · rename_i summary hsum
    split at h
    · exact absurd h (by simp)
    · rename_i hne
      have := Option.some.inj h
      exact ⟨summary, by rw [← this], hne⟩

theorem codexSummaryOf_some {s : SessionSummary} {sum : String}
    (h : codexSummaryOf s = some sum) : ∃ m, toSummary m = some sum := by
  unfold codexSummaryOf at h
  split at h
  · exact absurd h (by simp)
  · rename_i m hm
    split at h
    · exact absurd h (by simp)
    · exact ⟨m, h⟩

theorem codexLoop_mem {parseDate : String → Option Int} {cwd : String}
    {elim : Nat} :
    ∀ (files : List (String × List CodexRecord)) (events : List ToolEvent)
      (ev : ToolEvent), ev ∈ codexLoop parseDate cwd elim events files →
      ev ∈ events ∨ ∃ fn records, (fn, records) ∈ files ∧
        codexFileEvent parseDate cwd fn (readSessionSummary records) =
          some ev := by
  intro files
  induction files with
  | nil => intro events ev h; exact Or.inl h
  | cons file rest ih =>
    intro events ev h
    obtain ⟨fn, records⟩ := file
    unfold codexLoop at h
    rcases hfe : codexFileEvent parseDate cwd fn (readSessionSummary records)
       with _ | e
    · rw [hfe] at h
      replace h : ev ∈ codexLoop parseDate cwd elim events rest := h
      rcases ih events ev h with h1 | ⟨fn2, r2, hmem, hsome⟩
      · exact Or.inl h1
      · exact Or.inr ⟨fn2, r2, List.mem_cons_of_mem _ hmem, hsome⟩
    · rw [hfe] at h
      replace h : ev ∈ (if (events ++ [e]).length ≥ elim then events ++ [e]
        else codexLoop parseDate cwd elim (events ++ [e]) rest) := h
      by_cases hlen : (events ++ [e]).length ≥ elim
      · rw [if_pos hlen] at h
        rcases List.mem_append.1 h with h1 | h1
        · exact Or.inl h1
        · rw [List.mem_singleton] at h1
          subst h1
          exact Or.inr ⟨fn, records, List.mem_cons_self _ _, hfe⟩
      · rw [if_neg hlen] at h
        rcases ih (events ++ [e]) ev h with h1 | ⟨fn2, r2, hmem, hsome⟩
        · rcases List.mem_append.1 h1 with h2 | h2
          · exact Or.inl h2
          · rw [List.mem_singleton] at h2
            subst h2
            exact Or.inr ⟨fn, records, List.mem_cons_self _ _, hfe⟩
        · exact Or.inr ⟨fn2, r2, List.mem_cons_of_mem _ hmem, hsome⟩

theorem geminiLoop_mem {parseDate : String → Option Int} {limit : Option Nat} :
    ∀ (files : List (GeminiChatSession × String)) (events : List ToolEvent)
      (ev : ToolEvent), ev ∈ geminiLoop parseDate limit events files →
      ev ∈ events ∨ ∃ doc fn, (doc, fn) ∈ files ∧
        geminiFileEvent parseDate doc fn = some ev := by
  intro files
  induction files with
  | nil => intro events ev h; exact Or.inl h
  | cons file rest ih =>
    intro events ev h
    obtain ⟨doc, fn⟩ := file
    unfold geminiLoop at h
    split at h
    · exact Or.inl h
    · rcases hfe : geminiFileEvent parseDate doc fn with _ | e
      · rw [hfe] at h
        replace h : ev ∈ geminiLoop parseDate limit events rest := h
        rcases ih events ev h with h1 | ⟨d2, f2, hmem, hsome⟩
        · exact Or.inl h1
        · exact Or.inr ⟨d2, f2, List.mem_cons_of_mem _ hmem, hsome⟩
      · rw [hfe] at h
        replace h : ev ∈ geminiLoop parseDate limit (events ++ [e]) rest := h
        rcases ih (events ++ [e]) ev h with h1 | ⟨d2, f2, hmem, hsome⟩
        · rcases List.mem_append.1 h1 with h2 | h2
          · exact Or.inl h2
          · rw [List.mem_singleton] at h2
            subst h2
            exact Or.inr ⟨doc, fn, List.mem_cons_self _ _, hfe⟩
        · exact Or.inr ⟨d2, f2, List.mem_cons_of_mem _ hmem, hsome⟩

theorem geminiSummaryOf_some {doc : GeminiChatSession} {sum : String}
    (h : geminiSummaryOf doc = some sum) : ∃ x, toSummary x = some sum := by
  unfold geminiSummaryOf at h
  rw [Option.bind_eq_some] at h
  obtain ⟨x, _, hx⟩ := h
  exact ⟨x, hx⟩

theorem geminiFileEvent_some_summary {parseDate : String → Option Int}
    {doc : GeminiChatSession} {fn : String} {ev : ToolEvent}
    (h : geminiFileEvent parseDate doc fn = some ev) :
    ∃ s, ev.summary = some s ∧ s ≠ "" := by
  unfold geminiFileEvent at h
  split at h
  · exact absurd h (by simp)
  · split at h
    · exact absurd h (by simp)
    · split at h
      · exact absurd h (by simp)
      · rename_i summary hsum
        obtain ⟨x, hx⟩ := geminiSummaryOf_some hsum
        have hne := (toSummary_some_spec hx).2.1
        have := Option.some.inj h
        exact ⟨summary, by rw [← this], hne⟩

theorem codexFileEvent_summary_nonempty {parseDate : String → Option Int}
    {cwd fn : String} {s : SessionSummary} {ev : ToolEvent}
    (h : codexFileEvent parseDate cwd fn s = some ev) :
    ∃ x, ev.summary = some x ∧ x ≠ "" := by
  unfold codexFileEvent at h
  split at h
  · exact absurd h (by simp)
  · split at h
    · exact absurd h (by simp)
    · split at h
      · exact absurd h (by simp)
      · split at h
        · exact absurd h (by simp)
        · rename_i sum hsum
          obtain ⟨m, hm⟩ := codexSummaryOf_some hsum
          have hne := (toSummary_some_spec hm).2.1
          have := Option.some.inj h
          exact ⟨sum, by rw [← this], hne⟩

theorem claudeFetchEvents_sample :
    claudeFetchEvents "/p" [⟨some 200, some "hello", some "s1", some "/p"⟩]
      none = [sampleEvent] := by
  have h1 : processClaudeRecord "/p" []
      ⟨some 200, some "hello", some "s1", some "/p"⟩ =
      [("s1", ⟨200, 200, none, some "hello", some "hello", none⟩)] := by
    decide
  have h2 : List.filterMap finalizeClaudeSession
      [("s1", ⟨200, 200, none, some "hello", some "hello", none⟩)] =
      [sampleEvent] := by decide
  show (sortByTime (List.filterMap finalizeClaudeSession
    (List.foldl (processClaudeRecord "/p") []
      [⟨some 200, some "hello", some "s1", some "/p"⟩]))).take 50 = _
  rw [List.foldl_cons, h1, List.foldl_nil, h2, sortByTime,
    List.mergeSort_singleton]
  rfl

/-- C6: every `ToolEvent` emitted by any of the three parsers has a defined,
non-empty summary; in particular a Gemini document with no user-authored
message yields no event for that file. -/
theorem events_have_nonempty_summary :
    (∀ (cwd : String) (records : List ClaudeRecord) (limit : Option Nat)
        (ev : ToolEvent), ev ∈ claudeFetchEvents cwd records limit →
        ∃ s, ev.summary = some s ∧ s ≠ "") ∧
    (∀ (parseDate : String → Option Int) (cwd : String)
        (files : List (String × List CodexRecord)) (limit : Option Nat)
        (ev : ToolEvent), ev ∈ codexFetchEvents parseDate cwd files limit →
        ∃ s, ev.summary = some s ∧ s ≠ "") ∧
    (∀ (parseDate : String → Option Int)
        (files : List (GeminiChatSession × String)) (limit : Option Nat)
        (ev : ToolEvent), ev ∈ geminiFetchEvents parseDate files limit →
        ∃ s, ev.summary = some s ∧ s ≠ "") ∧
    (∀ (parseDate : String → Option Int) (doc : GeminiChatSession)
        (fn : String), (∀ m ∈ doc.messages.getD [], m.mtype ≠ some "user") →
        geminiFileEvent parseDate doc fn = none) := by
  refine ⟨?_, ?_, ?_, ?_⟩
  · intro cwd records limit ev hev
    replace hev : ev ∈ (sortByTime ((records.foldl (processClaudeRecord cwd)
      []).filterMap finalizeClaudeSession)).take (limit.getD 50) := hev
    have h1 := List.take_subset _ _ hev
    rw [sortByTime, List.mem_mergeSort] at h1
    obtain ⟨entry, _, hfin⟩ := List.mem_filterMap.1 h1
    exact finalizeClaudeSession_some_summary hfin
  · intro parseDate cwd files limit ev hev
    replace hev : ev ∈ codexLoop parseDate cwd (limit.getD 50) [] files := hev
    rcases codexLoop_mem files [] ev hev with h1 | ⟨fn, records, _, hsome⟩
    · exact absurd h1 (by simp)
    · exact codexFileEvent_summary_nonempty hsome
  · intro parseDate files limit ev hev
    replace hev : ev ∈ geminiLoop parseDate (some (limit.getD 50)) [] files :=
      hev
    rcases geminiLoop_mem files [] ev hev with h1 | ⟨doc, fn, _, hsome⟩
    · exact absurd h1 (by simp)
    · exact geminiFileEvent_some_summary hsome
  · intro parseDate doc fn hmsg
    have hfilter : geminiUserMessages doc = [] := by
      rw [geminiUserMessages, List.filter_eq_nil_iff]
      intro m hm
      simp [hmsg m hm]
    have hsum : geminiSummaryOf doc = none := by
      rw [geminiSummaryOf, hfilter]
      rfl
    unfold geminiFileEvent
    split
    · rfl
    · split
      · rfl
      · rw [hsum]

/-- Witness for C6 at concrete inputs for each of the four conjuncts. -/
theorem events_have_nonempty_summary_witness :
    (∃ s, sampleEvent.summary = some s ∧ s ≠ "") ∧
      (∃ s, (ToolEvent.mk "codex-sX" "Codex CLI" 9 "a.jsonl" .high
        (some "first msg")
        (some ⟨"codex", ["resume", "sX"], .resume⟩)).summary = some s ∧
          s ≠ "") ∧
      (∃ s, (ToolEvent.mk "gemini-g1" "Gemini CLI" 3 "gemini-tmp" .medium
        (some "hi") (some ⟨"gemini", [], .launch⟩)).summary = some s ∧
          s ≠ "") ∧
      geminiFileEvent (fun _ => some 3)
        ⟨some "g2", some "lu", some [⟨some "assistant", some "Only"⟩]⟩
        "f.json" = none := by
  refine ⟨?_, ?_, ?_, ?_⟩
  · exact events_have_nonempty_summary.1 "/p"
      [⟨some 200, some "hello", some "s1", some "/p"⟩] none sampleEvent
      (by rw [claudeFetchEvents_sample]; exact List.mem_singleton.2 rfl)
  · exact events_have_nonempty_summary.2.1 (fun _ => some 9) "/w"
      [("a.jsonl",
        [⟨some "session_meta", some "t0", some ⟨some "sX", some "/w", none, none⟩⟩,
          ⟨some "event_msg", some "t1",
            some ⟨none, none, some "user_message", some "first msg"⟩⟩])]
      none _ (by decide)
  · exact events_have_nonempty_summary.2.2.1 (fun _ => some 3)
      [(⟨some "g1", some "lu", some [⟨some "user", some "hi"⟩]⟩, "f.json")]
      none _ (by decide)
  · exact events_have_nonempty_summary.2.2.2 (fun _ => some 3)
      ⟨some "g2", some "lu", some [⟨some "assistant", some "Only"⟩]⟩
      "f.json" (by decide)

theorem geminiLoop_length {parseDate : String → Option Int} {n : Nat} :
    ∀ (files : List (GeminiChatSession × String)) (events : List ToolEvent),
      events.length ≤ n →
      (geminiLoop parseDate (some n) events files).length ≤ n := by
  intro files
  induction files with
  | nil => intro events h; exact h
  | cons file rest ih =>
    intro events h
    obtain ⟨doc, fn⟩ := file
    unfold geminiLoop
    by_cases hge : events.length ≥ n
    · rw [if_pos (by simpa using hge)]
      exact h
    · rw [if_neg (by simpa using hge)]
      rcases geminiFileEvent parseDate doc fn with _ | e
      · exact ih events h
      · exact ih (events ++ [e]) (by simp; omega)

theorem codexLoop_length {parseDate : String → Option Int} {cwd : String}
    {n : Nat} :
    ∀ (files : List (String × List CodexRecord)) (events : List ToolEvent),
      (codexLoop parseDate cwd n events files).length ≤
        max n (events.length + 1) := by
  intro files
  induction files with
  | nil =>
    intro events
    show events.length ≤ max n (events.length + 1)
    omega
  | cons file rest ih =>
    intro events
    obtain ⟨fn, records⟩ := file
    unfold codexLoop
    rcases codexFileEvent parseDate cwd fn (readSessionSummary records)
      with _ | e
    · exact le_trans (ih events) le_rfl
    · show ((if (events ++ [e]).length ≥ n then events ++ [e]
        else codexLoop parseDate cwd n (events ++ [e]) rest)).length ≤
          max n (events.length + 1)
      by_cases hge : (events ++ [e]).length ≥ n
      · rw [if_pos hge]
        simp
      · rw [if_neg hge]
        refine le_trans (ih (events ++ [e])) ?_
        simp only [List.length_append, List.length_singleton] at hge ⊢
        omega

/-- C10 as stated is false: `codexProvider.fetchEvents` pushes an event
before checking the limit, so with a supplied limit of `0` a single valid
session file still yields one event, exceeding the limit. -/
theorem codex_limit_zero_counterexample :
    (codexFetchEvents (fun _ => some 9) "/w"
        [("a.jsonl",
          [⟨some "session_meta", some "t0",
            some ⟨some "sX", some "/w", none, none⟩⟩,
            ⟨some "event_msg", some "t1",
              some ⟨none, none, some "user_message", some "first msg"⟩⟩])]
        (some 0)).length = 1 ∧
      ¬((codexFetchEvents (fun _ => some 9) "/w"
        [("a.jsonl",
          [⟨some "session_meta", some "t0",
            some ⟨some "sX", some "/w", none, none⟩⟩,
            ⟨some "event_msg", some "t1",
              some ⟨none, none, some "user_message", some "first msg"⟩⟩])]
        (some 0)).length ≤ 0) := by
  constructor
  · decide
  · decide

/-- C10 (amended): without a limit each provider's `fetchEvents` caps its
output at 50; with a supplied limit, the Claude and Gemini parsers return at
most that many events, and the Codex parser returns at most
`max limit 1` events (a zero limit still admits one event because the limit
check runs after the push). -/
theorem fetch_events_default_limit :
    (∀ (cwd : String) (records : List ClaudeRecord) (limit : Option Nat),
      (claudeFetchEvents cwd records limit).length ≤ limit.getD 50) ∧
    (∀ (parseDate : String → Option Int)
        (files : List (GeminiChatSession × String)) (limit : Option Nat),
      (geminiFetchEvents parseDate files limit).length ≤ limit.getD 50) ∧
    (∀ (parseDate : String → Option Int) (cwd : String)
        (files : List (String × List CodexRecord)) (limit : Option Nat),
      (codexFetchEvents parseDate cwd files limit).length ≤
        max (limit.getD 50) 1) := by
  refine ⟨?_, ?_, ?_⟩
  · intro cwd records limit
    exact List.length_take_le _ _
  · intro parseDate files limit
    exact geminiLoop_length files [] (by simp)
  · intro parseDate cwd files limit
    exact le_trans (codexLoop_length files []) (by simp)
